import Mathlib

/-!
Verification development for the transposition-table module of a chess
engine (`src/jackfish/tp.js`): Zobrist position hashing in two 32-bit
parts (low, high), an LRU-style recency cache, and a flush-on-full cache.

JavaScript `Map` is modelled as an association list in insertion order
(`Map.set` on a fresh key appends at the end; on a present key it updates
the value in place; `Map.delete` removes the entry; iteration order is
insertion order).  A JavaScript sparse array indexed by arbitrary numbers,
as used for the inner `high → entry` level, is modelled the same way,
since the code only ever reads and writes single indices.
-/

set_option autoImplicit false

namespace ChessTP

/-- Association list keyed by `Int`, in JS-Map insertion order
(head = oldest insertion). -/
abbrev JMap (α : Type) := List (Int × α)

namespace JMap

/-- JS `Map.get(k)` / reading `arr[k]`: first (unique) entry with key `k`. -/
def get {α : Type} : JMap α → Int → Option α
  | [], _ => none
  | (k0, v0) :: rest, k => if k0 = k then some v0 else get rest k

/-- A `Map.has(k)`-like test used to phrase lemmas. -/
def hasKey {α : Type} : JMap α → Int → Bool
  | [], _ => false
  | (k0, _) :: rest, k => if k0 = k then true else hasKey rest k

/-- JS `Map.set(k, v)` / writing `arr[k] = v`: update in place when the key is
present, append at the end otherwise. -/
def set {α : Type} : JMap α → Int → α → JMap α
  | [], k, v => [(k, v)]
  | (k0, v0) :: rest, k, v =>
      if k0 = k then (k, v) :: rest else (k0, v0) :: set rest k v

/-- JS `Map.delete(k)`: remove the entry with key `k` (keys are unique in every
map the code builds, so removing every match is the same operation). -/
def delete {α : Type} : JMap α → Int → JMap α
  | [], _ => []
  | (k0, v0) :: rest, k =>
      if k0 = k then delete rest k else (k0, v0) :: delete rest k

/-- The keys in iteration (= insertion) order, as `Map.keys()` yields them. -/
def keys {α : Type} (m : JMap α) : List Int := m.map (·.1)

@[simp] theorem get_nil {α : Type} (k : Int) : get ([] : JMap α) k = none := rfl

@[simp] theorem get_cons {α : Type} (k0 k : Int) (v0 : α) (rest : JMap α) :
    get ((k0, v0) :: rest) k = if k0 = k then some v0 else get rest k := rfl

@[simp] theorem hasKey_nil {α : Type} (k : Int) : hasKey ([] : JMap α) k = false := rfl

@[simp] theorem hasKey_cons {α : Type} (k0 k : Int) (v0 : α) (rest : JMap α) :
    hasKey ((k0, v0) :: rest) k = if k0 = k then true else hasKey rest k := rfl

theorem hasKey_eq_isSome_get {α : Type} (m : JMap α) (k : Int) :
    hasKey m k = (get m k).isSome := by
  induction m with
  | nil => rfl
  | cons p rest ih =>
      obtain ⟨k0, v0⟩ := p
      by_cases h : k0 = k <;> simp [h, ih]

@[simp] theorem get_set_self {α : Type} (m : JMap α) (k : Int) (v : α) :
    get (set m k v) k = some v := by
  induction m with
  | nil => simp [set]
  | cons p rest ih =>
      obtain ⟨k0, v0⟩ := p
      by_cases h : k0 = k <;> simp [set, h, ih]

theorem get_set_ne {α : Type} (m : JMap α) (k k' : Int) (v : α) (h : k ≠ k') :
    get (set m k v) k' = get m k' := by
  induction m with
  | nil => simp [set, h]
  | cons p rest ih =>
      obtain ⟨k0, v0⟩ := p
      by_cases h0 : k0 = k
      · subst h0; simp [set, h]
      · simp only [set, if_neg h0, get_cons, ih]

@[simp] theorem get_delete_self {α : Type} (m : JMap α) (k : Int) :
    get (delete m k) k = none := by
  induction m with
  | nil => rfl
  | cons p rest ih =>
      obtain ⟨k0, v0⟩ := p
      by_cases h : k0 = k <;> simp [delete, h, ih]

theorem get_delete_ne {α : Type} (m : JMap α) (k k' : Int) (h : k ≠ k') :
    get (delete m k) k' = get m k' := by
  induction m with
  | nil => rfl
  | cons p rest ih =>
      obtain ⟨k0, v0⟩ := p
      by_cases h0 : k0 = k
      · subst h0; simp [delete, if_pos rfl, ih, h]
      · simp [delete, h0, ih]

theorem set_eq_append_of_not_hasKey {α : Type} (m : JMap α) (k : Int) (v : α)
    (h : hasKey m k = false) : set m k v = m ++ [(k, v)] := by
  induction m with
  | nil => rfl
  | cons p rest ih =>
      obtain ⟨k0, v0⟩ := p
      by_cases h0 : k0 = k
      · simp [h0] at h
      · simp only [hasKey_cons, if_neg h0] at h
        simp [set, h0, ih h]

theorem mem_keys_of_hasKey {α : Type} (m : JMap α) (k : Int)
    (h : hasKey m k = true) : k ∈ keys m := by
  induction m with
  | nil => simp [hasKey] at h
  | cons p rest ih =>
      obtain ⟨k0, v0⟩ := p
      by_cases h0 : k0 = k
      · simp [keys, h0]
      · simp only [hasKey_cons, if_neg h0] at h
        simp [keys] at ih ⊢
        exact Or.inr (ih h)

theorem hasKey_of_mem_keys {α : Type} (m : JMap α) (k : Int)
    (h : k ∈ keys m) : hasKey m k = true := by
  induction m with
  | nil => simp [keys] at h
  | cons p rest ih =>
      obtain ⟨k0, v0⟩ := p
      simp only [keys, List.map_cons, List.mem_cons] at h
      by_cases h0 : k0 = k
      · simp [h0]
      · simp only [hasKey_cons, if_neg h0]
        rcases h with h | h
        · exact absurd h.symm h0
        · exact ih h

theorem hasKey_delete_self {α : Type} (m : JMap α) (k : Int) :
    hasKey (delete m k) k = false := by
  rw [hasKey_eq_isSome_get, get_delete_self]; rfl

theorem hasKey_delete_ne {α : Type} (m : JMap α) (k k' : Int) (h : k ≠ k') :
    hasKey (delete m k) k' = hasKey m k' := by
  rw [hasKey_eq_isSome_get, hasKey_eq_isSome_get, get_delete_ne m k k' h]

@[simp] theorem hasKey_set_self {α : Type} (m : JMap α) (k : Int) (v : α) :
    hasKey (set m k v) k = true := by
  rw [hasKey_eq_isSome_get, get_set_self]; rfl

theorem hasKey_set_ne {α : Type} (m : JMap α) (k k' : Int) (v : α) (h : k ≠ k') :
    hasKey (set m k v) k' = hasKey m k' := by
  rw [hasKey_eq_isSome_get, hasKey_eq_isSome_get, get_set_ne m k k' v h]

theorem length_set_of_hasKey {α : Type} (m : JMap α) (k : Int) (v : α)
    (h : hasKey m k = true) : (set m k v).length = m.length := by
  induction m with
  | nil => simp [hasKey] at h
  | cons p rest ih =>
      obtain ⟨k0, v0⟩ := p
      by_cases h0 : k0 = k
      · simp [set, h0]
      · simp only [hasKey_cons, if_neg h0] at h
        simp [set, h0, ih h]

theorem length_set_of_not_hasKey {α : Type} (m : JMap α) (k : Int) (v : α)
    (h : hasKey m k = false) : (set m k v).length = m.length + 1 := by
  rw [set_eq_append_of_not_hasKey m k v h]; simp

theorem length_delete_le {α : Type} (m : JMap α) (k : Int) :
    (delete m k).length ≤ m.length := by
  induction m with
  | nil => simp [delete]
  | cons p rest ih =>
      obtain ⟨k0, v0⟩ := p
      by_cases h : k0 = k
      · simp only [delete, if_pos h]
        exact le_trans ih (Nat.le_succ _)
      · simp only [delete, if_neg h, List.length_cons]
        omega

theorem keys_delete {α : Type} (m : JMap α) (k : Int) :
    keys (delete m k) = (keys m).filter (fun x => !decide (x = k)) := by
  induction m with
  | nil => rfl
  | cons p rest ih =>
      obtain ⟨k0, v0⟩ := p
      by_cases h : k0 = k <;> simp [delete, keys, h, List.filter] at ih ⊢ <;> exact ih

theorem keys_set_of_hasKey {α : Type} (m : JMap α) (k : Int) (v : α)
    (h : hasKey m k = true) : keys (set m k v) = keys m := by
  induction m with
  | nil => simp [hasKey] at h
  | cons p rest ih =>
      obtain ⟨k0, v0⟩ := p
      by_cases h0 : k0 = k
      · simp [set, h0, keys]
      · simp only [hasKey_cons, if_neg h0] at h
        simp [set, h0, keys] at ih ⊢
        exact ih h

theorem keys_delete_nodup {α : Type} (m : JMap α) (k : Int)
    (hn : (keys m).Nodup) : (keys (delete m k)).Nodup := by
  rw [keys_delete]; exact hn.filter _

theorem keys_set_nodup {α : Type} (m : JMap α) (k : Int) (v : α)
    (hn : (keys m).Nodup) : (keys (set m k v)).Nodup := by
  by_cases h : hasKey m k = true
  · rw [keys_set_of_hasKey m k v h]; exact hn
  · have hf : hasKey m k = false := by simpa using h
    rw [set_eq_append_of_not_hasKey m k v hf]
    simp only [keys, List.map_append, List.map_cons, List.map_nil]
    rw [List.nodup_append]
    refine ⟨hn, List.nodup_singleton k, ?_⟩
    intro x hx
    simp only [List.mem_singleton]
    intro hxk
    subst hxk
    exact h (hasKey_of_mem_keys m x hx)

theorem filter_out_length {l : List Int} {k : Int} (hn : l.Nodup) (hmem : k ∈ l) :
    (l.filter (fun y => !decide (y = k))).length + 1 = l.length := by
  induction l with
  | nil => simp at hmem
  | cons x xs ih =>
      simp only [List.nodup_cons] at hn
      rcases List.mem_cons.mp hmem with hx | hx
      · subst hx
        have hself : xs.filter (fun y => !decide (y = k)) = xs := by
          apply List.filter_eq_self.mpr
          intro y hy
          simp only [Bool.not_eq_true']
          exact decide_eq_false (fun hyx => hn.1 (hyx ▸ hy))
        simp [List.filter, hself]
      · have hne : ¬ x = k := fun hxk => hn.1 (hxk ▸ hx)
        simp only [List.filter, decide_eq_false hne, Bool.not_false, List.length_cons]
        rw [← ih hn.2 hx]

theorem length_delete_of_hasKey {α : Type} (m : JMap α) (k : Int)
    (hn : (keys m).Nodup) (h : hasKey m k = true) :
    (delete m k).length + 1 = m.length := by
  have hkeys : (keys (delete m k)).length + 1 = (keys m).length := by
    rw [keys_delete]
    exact filter_out_length hn (mem_keys_of_hasKey m k h)
  simpa [keys] using hkeys

end JMap

/-- Modelled from the spec: the `Move` type imported from `declarations`
(that file is not under `src/`); the caches treat entries as opaque move
descriptors or scores, so only the existence of such a type matters. -/
structure Move where
  fromSq : Int
  toSq : Int
  deriving DecidableEq

/-- A cache entry: `type Entry = Move | number` — a move or a score. -/
inductive Entry where
  | move (m : Move)
  | score (s : Int)
  deriving DecidableEq

/-- The LRU cache of `tp.js`: a JS `Map` from `low` to an inner
`high → entry` sparse array, plus the configured `maxSize`. -/
structure LRU (α : Type) where
  map : JMap (JMap α)
  maxSize : Int

namespace LRU

/-- The constructor, `this.maxSize = maxSize`, with `map` starting
as the empty `Map`. -/
def new {α : Type} (maxSize : Int) : LRU α := ⟨[], maxSize⟩

/-- The method `size() { return this.map.size; }`. -/
def size {α : Type} (c : LRU α) : Nat := c.map.length

/-- Method `LRU.get`: look up the `low` group; when present, refresh it to
most-recently-used (delete + re-insert) and return the entry at `high`.
Returns the result together with the updated cache state, since the
recency refresh mutates the map. -/
def get {α : Type} (c : LRU α) (hash : Int × Int) : Option α × LRU α :=
  let low := hash.1
  let high := hash.2
  match JMap.get c.map low with
  | some arr =>
      (JMap.get arr high, { c with map := JMap.set (JMap.delete c.map low) low arr })
  | none => (none, c)

/-- The map-update phase of `LRU.add`: when the `low` group exists, write
the entry at `high` into it and refresh it to most-recently-used
(delete + re-insert); otherwise create a fresh group holding only the new
entry, inserted as most-recently-used. -/
def writeMap {α : Type} (c : LRU α) (hash : Int × Int) (v : α) : JMap (JMap α) :=
  match JMap.get c.map hash.1 with
  | some arr => JMap.set (JMap.delete c.map hash.1) hash.1 (JMap.set arr hash.2 v)
  | none => JMap.set c.map hash.1 (JMap.set [] hash.2 v)

/-- The eviction phase of `LRU.add`: when the map has grown past `maxSize`,
delete the first key in iteration order (`this.map.keys().next().value`);
`Map.delete(undefined)` on an empty map is a no-op. -/
def evict {α : Type} (maxSize : Int) (m : JMap (JMap α)) : JMap (JMap α) :=
  if (m.length : Int) > maxSize then
    match m.head? with
    | some e => JMap.delete m e.1
    | none => m
  else m

/-- Method `LRU.add`: the map update followed by the possible eviction. -/
def add {α : Type} (c : LRU α) (hash : Int × Int) (v : α) : LRU α :=
  { c with map := evict c.maxSize (writeMap c hash v) }

/-- Pure lookup at `(low, high)` without the recency refresh; used only to
phrase properties (it returns exactly what `get` returns as its value). -/
def peek {α : Type} (c : LRU α) (hash : Int × Int) : Option α :=
  match JMap.get c.map hash.1 with
  | some arr => JMap.get arr hash.2
  | none => none

end LRU

/-- The flush-on-full cache of `tp.js`: a sparse outer array from `low` to
an inner `high → entry` sparse array, with an explicit entry counter. -/
structure Cache (α : Type) where
  cache : JMap (JMap α)
  maxSize : Int
  currentSize : Int

namespace Cache

/-- The constructor, `this.maxSize = size`, with `cache = []` and
`currentSize = 0` as field initialisers. -/
def new {α : Type} (size : Int) : Cache α := ⟨[], size, 0⟩

/-- The method `size() { return this.currentSize; }`. -/
def size {α : Type} (c : Cache α) : Int := c.currentSize

/-- Method `Cache.get`: two-level lookup, `undefined` (→ `none`) when either level
is missing. -/
def get {α : Type} (c : Cache α) (hash : Int × Int) : Option α :=
  match JMap.get c.cache hash.1 with
  | some arr => JMap.get arr hash.2
  | none => none

/-- The reset phase of `Cache.add`: when `currentSize === maxSize`, clear
the whole cache and restart the counter. -/
def flushIfFull {α : Type} (c : Cache α) : Cache α :=
  if c.currentSize = c.maxSize then { c with cache := [], currentSize := 0 } else c

/-- The insertion phase of `Cache.add`: write at `(low, high)`,
incrementing the counter only when the exact slot was previously
`undefined`. -/
def insertEntry {α : Type} (c : Cache α) (hash : Int × Int) (v : α) : Cache α :=
  match JMap.get c.cache hash.1 with
  | some arr =>
      { c with
        cache := JMap.set c.cache hash.1 (JMap.set arr hash.2 v),
        currentSize := c.currentSize + (if (JMap.get arr hash.2).isNone then 1 else 0) }
  | none =>
      { c with
        cache := JMap.set c.cache hash.1 (JMap.set [] hash.2 v),
        currentSize := c.currentSize + 1 }

/-- Method `Cache.add`: the possible reset followed by the insertion. -/
def add {α : Type} (c : Cache α) (hash : Int × Int) (v : α) : Cache α :=
  (c.flushIfFull).insertEntry hash v

end Cache

/-- One operation issued by the search loop against a cache. -/
inductive Op (α : Type) where
  | addOp (key : Int × Int) (val : α)
  | getOp (key : Int × Int)

/-- Does the operation store an entry at exactly this `(low, high)` key? -/
def Op.isAddAt {α : Type} : Op α → (Int × Int) → Bool
  | .addOp k _, k' => k = k'
  | .getOp _, _ => false

/-- Run a sequence of operations against an LRU cache (`get` mutates the
recency order, so it threads the state). -/
def LRU.run {α : Type} (c : LRU α) : List (Op α) → LRU α
  | [] => c
  | Op.addOp k v :: rest => (c.add k v).run rest
  | Op.getOp k :: rest => (c.get k).2.run rest

/-- Run a sequence of operations against a flush cache (`Cache.get` reads
only, so it leaves the state unchanged). -/
def Cache.run {α : Type} (c : Cache α) : List (Op α) → Cache α
  | [] => c
  | Op.addOp k v :: rest => (c.add k v).run rest
  | Op.getOp _ :: rest => c.run rest

/-! ### Zobrist hashing

`rand()` draws from a seeded Mersenne-Twister; the development is generic
over the draw sequence.  A 32-bit signed integer is modelled by its
32-bit two's-complement bit pattern, a `Nat` below `2 ^ 32`; JS `^` on
32-bit values is exactly `Nat.xor` on the patterns. -/

/-- The Key Generator as a draw sequence: the `i`-th call to `rand()`
produces the 32-bit pattern `g i % 2 ^ 32`. -/
abbrev KeyGen : Type := Nat → Nat

/-- The call `make()` when the generator has already been consumed `i` times:
a `[low, high]` pair from the draws numbered `i` and `i + 1`. -/
def mk32 (g : KeyGen) (i : Nat) : Nat × Nat := (g i % 2 ^ 32, g (i + 1) % 2 ^ 32)

/-- Modelled from the spec: the `WHITE` turn code from `declarations`
(absent from `src/`), used as an index into `hashes.turn`. -/
def WHITE : Nat := 0

/-- Modelled from the spec: the `BLACK` turn code from `declarations`
(absent from `src/`). -/
def BLACK : Nat := 1

/-- Modelled from the spec: the `pieces` list from `declarations` (absent
from `src/`) — one identifier per piece kind per color, six kinds for each
of the two colors, 12 in all; the identifiers are opaque distinct tags,
nonzero because the JS values are truthy. -/
def pieces : List Nat := [1, 2, 3, 4, 5, 6, 7, 8, 9, 10, 11, 12]

/-- The `hashes` table: key-pairs per (piece, square), per turn value, per
white/black castling right, and per en-passant file. -/
structure HashTable where
  piece : Nat → Nat → Nat × Nat
  turn : Nat → Nat × Nat
  wc : Nat → Nat × Nat
  bc : Nat → Nat × Nat
  epFile : Nat → Nat × Nat

/-- The table before any field of `hashes` has been assigned. -/
def emptyTable : HashTable :=
  ⟨fun _ _ => (0, 0), fun _ => (0, 0), fun _ => (0, 0), fun _ => (0, 0), fun _ => (0, 0)⟩

/-- One iteration of the `pieces.forEach` initialisation loop, threading
the number of generator draws consumed so far.  Exactly as in the source,
each iteration fills the 64 squares of piece `p` and then rebuilds
`hashes.turn`, `hashes.wc`, `hashes.bc` and `hashes.epFile` from scratch —
those four assignments sit inside the loop body. -/
def initStep (g : KeyGen) (st : HashTable × Nat) (p : Nat) : HashTable × Nat :=
  let tbl := st.1
  let i0 := st.2
  let row : Nat → Nat × Nat := fun sq => if sq < 64 then mk32 g (i0 + 2 * sq) else (0, 0)
  let i1 := i0 + 128
  let turnRow : Nat → Nat × Nat := fun t => if t < 2 then mk32 g (i1 + 2 * t) else (0, 0)
  let i2 := i1 + 4
  let wcRow : Nat → Nat × Nat := fun s => if s < 2 then mk32 g (i2 + 2 * s) else (0, 0)
  let i3 := i2 + 4
  let bcRow : Nat → Nat × Nat := fun s => if s < 2 then mk32 g (i3 + 2 * s) else (0, 0)
  let i4 := i3 + 4
  let epRow : Nat → Nat × Nat := fun f => if f < 8 then mk32 g (i4 + 2 * f) else (0, 0)
  let i5 := i4 + 16
  (⟨fun q => if q = p then row else tbl.piece q, turnRow, wcRow, bcRow, epRow⟩, i5)

/-- The module initialisation of `hashes`: fold the loop body over the
piece list, starting from an unassigned table and zero draws consumed.
Returns the final table and the total number of `rand()` calls. -/
def initHashes (g : KeyGen) : HashTable × Nat :=
  pieces.foldl (initStep g) (emptyTable, 0)

/-- The table the rest of the module reads. -/
def hashesTable (g : KeyGen) : HashTable := (initHashes g).1

/-- The number of distinct position features: one per (piece kind, square),
per turn value, per castling right, per en-passant file. -/
def featureCount : Nat := pieces.length * 64 + 2 + 4 + 8

/-- The position view consumed by `hash`: 64 squares each empty or holding
a piece tag, the side to move, queenside/kingside castling flags for each
color, and the en-passant value with `-1` as the "none" sentinel. -/
structure Position where
  board : Nat → Option Nat
  turn : Nat
  wc : Bool × Bool
  bc : Bool × Bool
  ep : Int

/-- Helper `applyHashes`: XOR a key-pair into the running `(low, high)`. -/
def applyHashes (lh : Nat × Nat) (kp : Nat × Nat) : Nat × Nat :=
  (lh.1 ^^^ kp.1, lh.2 ^^^ kp.2)

/-- Function `hash(pos)`: start from `(0, 0)`; XOR in the turn pair, then each
occupied square's (piece, square) pair over squares `0..63`, then each held
castling right's pair, then the en-passant file pair when `ep !== -1`,
indexed by `ep % 8`. -/
def hash (tbl : HashTable) (pos : Position) : Nat × Nat :=
  let lh := applyHashes (0, 0) (tbl.turn pos.turn)
  let lh := (List.range 64).foldl
    (fun lh i =>
      match pos.board i with
      | some p => applyHashes lh (tbl.piece p i)
      | none => lh) lh
  let lh := if pos.wc.1 then applyHashes lh (tbl.wc 0) else lh
  let lh := if pos.wc.2 then applyHashes lh (tbl.wc 1) else lh
  let lh := if pos.bc.1 then applyHashes lh (tbl.bc 0) else lh
  let lh := if pos.bc.2 then applyHashes lh (tbl.bc 1) else lh
  if pos.ep ≠ -1 then applyHashes lh (tbl.epFile (pos.ep.tmod 8).toNat) else lh

/-- The spec's wording of the algorithm, stated independently: collect the
key-pairs of the active features — side to move, occupied squares in square
order, held castling rights, active en-passant file — and XOR them together
starting from `(0, 0)`. -/
def activeFeatures (tbl : HashTable) (pos : Position) : List (Nat × Nat) :=
  [tbl.turn pos.turn]
    ++ (List.range 64).filterMap (fun i => (pos.board i).map (fun p => tbl.piece p i))
    ++ (if pos.wc.1 then [tbl.wc 0] else [])
    ++ (if pos.wc.2 then [tbl.wc 1] else [])
    ++ (if pos.bc.1 then [tbl.bc 0] else [])
    ++ (if pos.bc.2 then [tbl.bc 1] else [])
    ++ (if pos.ep ≠ -1 then [tbl.epFile (pos.ep.tmod 8).toNat] else [])

/-- Fingerprint as the spec words it: XOR of all active feature pairs. -/
def hashSpec (tbl : HashTable) (pos : Position) : Nat × Nat :=
  (activeFeatures tbl pos).foldl applyHashes (0, 0)

/-! ### Theorems about the fingerprint -/

theorem foldl_applyHashes_board (tbl : HashTable) (pos : Position) (l : List Nat)
    (lh : Nat × Nat) :
    l.foldl (fun lh i =>
        match pos.board i with
        | some p => applyHashes lh (tbl.piece p i)
        | none => lh) lh
      = (l.filterMap (fun i => (pos.board i).map (fun p => tbl.piece p i))).foldl
          applyHashes lh := by
  induction l generalizing lh with
  | nil => rfl
  | cons x xs ih =>
      cases hx : pos.board x <;>
        simp [List.filterMap_cons, hx, List.foldl_cons, ih]

theorem foldl_applyHashes_single (c : Prop) [Decidable c] (x lh : Nat × Nat) :
    (if c then [x] else []).foldl applyHashes lh = if c then applyHashes lh x else lh := by
  by_cases hc : c <;> simp [hc]

theorem hash_eq_spec_aux (tbl : HashTable) (pos : Position) :
    hash tbl pos = hashSpec tbl pos := by
  unfold hash hashSpec activeFeatures
  simp only [List.foldl_append, List.foldl_cons, List.foldl_nil,
    foldl_applyHashes_single, foldl_applyHashes_board]

/-- C6: the fingerprint function computes exactly the spec's algorithm:
from `(0, 0)`, XOR in the side-to-move pair, then the pair of each occupied
square, then the pair of each held castling right, then — when the
en-passant sentinel `-1` is absent — the pair indexed by `ep mod 8`. -/
theorem hash_eq_hashSpec (tbl : HashTable) (pos : Position) :
    hash tbl pos = hashSpec tbl pos :=
  hash_eq_spec_aux tbl pos

/-- C7: XOR composition is an involution on fingerprints: applying any
feature key-pair twice in succession restores the original `(low, high)`. -/
theorem applyHashes_involution (lh kp : Nat × Nat) :
    applyHashes (applyHashes lh kp) kp = lh := by
  obtain ⟨l, h⟩ := lh
  obtain ⟨kl, kh⟩ := kp
  simp [applyHashes, Nat.xor_assoc]

theorem filterMap_congr_aux {α β : Type} (l : List α) (f g : α → Option β)
    (h : ∀ x ∈ l, f x = g x) : l.filterMap f = l.filterMap g := by
  induction l with
  | nil => rfl
  | cons x xs ih =>
      simp only [List.filterMap_cons, h x (List.mem_cons_self x xs)]
      rw [ih (fun y hy => h y (List.mem_cons_of_mem x hy))]

theorem activeFeatures_congr (tbl : HashTable) (p1 p2 : Position)
    (hb : ∀ i, i < 64 → p1.board i = p2.board i) (ht : p1.turn = p2.turn)
    (hw : p1.wc = p2.wc) (hc : p1.bc = p2.bc) (he : p1.ep = p2.ep) :
    activeFeatures tbl p1 = activeFeatures tbl p2 := by
  unfold activeFeatures
  rw [ht, hw, hc, he]
  rw [filterMap_congr_aux (List.range 64)
    (fun i => (p1.board i).map (fun p => tbl.piece p i))
    (fun i => (p2.board i).map (fun p => tbl.piece p i))
    (fun i hi => by
      show Option.map (fun p => tbl.piece p i) (p1.board i)
          = Option.map (fun p => tbl.piece p i) (p2.board i)
      rw [hb i (List.mem_range.mp hi)])]

/-- C8: the fingerprint is a pure function of the position's features:
two structurally equal positions (same square contents, side to move,
castling rights and en-passant value, regardless of how the position
values were produced) hash to bit-identical `(low, high)` pairs. -/
theorem hash_structural_determinism (tbl : HashTable) (p1 p2 : Position)
    (hb : ∀ i, i < 64 → p1.board i = p2.board i) (ht : p1.turn = p2.turn)
    (hw : p1.wc = p2.wc) (hc : p1.bc = p2.bc) (he : p1.ep = p2.ep) :
    hash tbl p1 = hash tbl p2 := by
  rw [hash_eq_spec_aux, hash_eq_spec_aux]
  unfold hashSpec
  rw [activeFeatures_congr tbl p1 p2 hb ht hw hc he]

/-- Witness for C8 at two concrete, intensionally different but
structurally equal positions. -/
theorem hash_structural_determinism_witness :
    hash emptyTable ⟨fun _ => none, 0, (false, false), (false, false), -1⟩
      = hash emptyTable
          ⟨fun i => if i < 64 then none else some 1, 0, (false, false), (false, false), -1⟩ :=
  hash_structural_determinism emptyTable _ _
    (fun i hi => by simp [hi]) rfl rfl rfl rfl

/-- C5 (code bug): the initialisation does not draw exactly two integers
per feature.  Because the turn, castling and en-passant assignments sit
inside the `pieces.forEach` loop, every piece iteration regenerates them:
the whole initialisation consumes 1872 draws instead of
`2 * featureCount = 1564`, and the surviving turn key-pair is the one
drawn during the last (12th) piece iteration, at draw position 1844. -/
theorem init_draw_count (g : KeyGen) :
    (initHashes g).2 = 1872 ∧
    2 * featureCount = 1564 ∧
    (initHashes g).2 ≠ 2 * featureCount ∧
    (hashesTable g).turn WHITE = mk32 g 1844 := by
  refine ⟨rfl, rfl, ?_, rfl⟩
  intro h
  rw [show (initHashes g).2 = 1872 from rfl] at h
  simp [featureCount, pieces] at h

/-! ### Theorems about the caches -/

theorem hasKey_of_head {α : Type} (m : JMap α) (e : Int × α)
    (h : m.head? = some e) : JMap.hasKey m e.1 = true := by
  cases m with
  | nil => simp at h
  | cons p rest =>
      simp only [List.head?_cons, Option.some.injEq] at h
      subst h
      obtain ⟨k0, v0⟩ := p
      simp

/-- Invariant maintained by every LRU cache reachable from `new m`:
unique group keys, at most `m` groups, and the configured maximum. -/
def LRUInv {α : Type} (m : Int) (c : LRU α) : Prop :=
  (JMap.keys c.map).Nodup ∧ (c.map.length : Int) ≤ m ∧ c.maxSize = m

theorem lru_get_fst_eq_peek {α : Type} (c : LRU α) (k : Int × Int) :
    (c.get k).1 = c.peek k := by
  cases h : JMap.get c.map k.1 with
  | some arr => simp only [LRU.get, LRU.peek, h]
  | none => simp only [LRU.get, LRU.peek, h]

theorem lru_get_snd_some {α : Type} (c : LRU α) (k : Int × Int) (arr : JMap α)
    (hget : JMap.get c.map k.1 = some arr) :
    (c.get k).2 = { map := JMap.set (JMap.delete c.map k.1) k.1 arr, maxSize := c.maxSize } := by
  simp only [LRU.get, hget]

theorem lru_get_snd_none {α : Type} (c : LRU α) (k : Int × Int)
    (hget : JMap.get c.map k.1 = none) : (c.get k).2 = c := by
  simp only [LRU.get, hget]

theorem lru_writeMap_some {α : Type} (c : LRU α) (k : Int × Int) (v : α) (arr : JMap α)
    (hget : JMap.get c.map k.1 = some arr) :
    LRU.writeMap c k v = JMap.set (JMap.delete c.map k.1) k.1 (JMap.set arr k.2 v) := by
  unfold LRU.writeMap
  rw [hget]

theorem lru_writeMap_none {α : Type} (c : LRU α) (k : Int × Int) (v : α)
    (hget : JMap.get c.map k.1 = none) :
    LRU.writeMap c k v = JMap.set c.map k.1 (JMap.set [] k.2 v) := by
  unfold LRU.writeMap
  rw [hget]

theorem lru_writeMap_nodup {α : Type} (c : LRU α) (k : Int × Int) (v : α)
    (hn : (JMap.keys c.map).Nodup) : (JMap.keys (LRU.writeMap c k v)).Nodup := by
  cases hget : JMap.get c.map k.1 with
  | some arr =>
      rw [lru_writeMap_some c k v arr hget]
      exact JMap.keys_set_nodup _ _ _ (JMap.keys_delete_nodup _ _ hn)
  | none =>
      rw [lru_writeMap_none c k v hget]
      exact JMap.keys_set_nodup _ _ _ hn

theorem lru_writeMap_length_some {α : Type} (c : LRU α) (k : Int × Int) (v : α)
    (arr : JMap α) (hn : (JMap.keys c.map).Nodup)
    (hget : JMap.get c.map k.1 = some arr) :
    (LRU.writeMap c k v).length = c.map.length := by
  rw [lru_writeMap_some c k v arr hget,
    JMap.length_set_of_not_hasKey _ _ _ (JMap.hasKey_delete_self c.map k.1),
    JMap.length_delete_of_hasKey c.map k.1 hn
      (by rw [JMap.hasKey_eq_isSome_get, hget]; rfl)]

theorem lru_writeMap_length_none {α : Type} (c : LRU α) (k : Int × Int) (v : α)
    (hget : JMap.get c.map k.1 = none) :
    (LRU.writeMap c k v).length = c.map.length + 1 := by
  rw [lru_writeMap_none c k v hget,
    JMap.length_set_of_not_hasKey _ _ _ (by rw [JMap.hasKey_eq_isSome_get, hget]; rfl)]

theorem lru_evict_of_le {α : Type} (ms : Int) (m : JMap (JMap α))
    (h : ¬ (m.length : Int) > ms) : LRU.evict ms m = m := by
  unfold LRU.evict
  rw [if_neg h]

theorem lru_evict_inv {α : Type} (ms : Int) (hms : 0 ≤ ms) (m : JMap (JMap α))
    (hn : (JMap.keys m).Nodup) (hb : (m.length : Int) ≤ ms + 1) :
    (JMap.keys (LRU.evict ms m)).Nodup ∧ ((LRU.evict ms m).length : Int) ≤ ms := by
  unfold LRU.evict
  by_cases hc : (m.length : Int) > ms
  · rw [if_pos hc]
    cases hhead : m.head? with
    | none =>
        have : m = [] := List.head?_eq_none_iff.mp hhead
        rw [this] at hc
        simp at hc
        omega
    | some e =>
        have hdel := JMap.length_delete_of_hasKey m e.1 hn (hasKey_of_head m e hhead)
        constructor
        · show (JMap.keys (JMap.delete m e.1)).Nodup
          exact JMap.keys_delete_nodup m e.1 hn
        · show ((JMap.delete m e.1).length : Int) ≤ ms
          omega
  · rw [if_neg hc]
    exact ⟨hn, by omega⟩

theorem lru_add_inv {α : Type} (m : Int) (hm : 1 ≤ m) (c : LRU α) (k : Int × Int) (v : α)
    (h : LRUInv m c) : LRUInv m (c.add k v) := by
  obtain ⟨hn, hlen, hmax⟩ := h
  have hwn : (JMap.keys (LRU.writeMap c k v)).Nodup := lru_writeMap_nodup c k v hn
  have hwb : ((LRU.writeMap c k v).length : Int) ≤ m + 1 := by
    cases hget : JMap.get c.map k.1 with
    | some arr => rw [lru_writeMap_length_some c k v arr hn hget]; omega
    | none => rw [lru_writeMap_length_none c k v hget]; push_cast; omega
  have hev := lru_evict_inv m (by omega) (LRU.writeMap c k v) hwn hwb
  refine ⟨?_, ?_, ?_⟩
  · show (JMap.keys (LRU.evict c.maxSize (LRU.writeMap c k v))).Nodup
    rw [hmax]
    exact hev.1
  · show ((LRU.evict c.maxSize (LRU.writeMap c k v)).length : Int) ≤ m
    rw [hmax]
    exact hev.2
  · exact hmax

theorem lru_get_inv {α : Type} (m : Int) (c : LRU α) (k : Int × Int)
    (h : LRUInv m c) : LRUInv m (c.get k).2 := by
  obtain ⟨hn, hlen, hmax⟩ := h
  cases hget : JMap.get c.map k.1 with
  | some arr =>
      rw [lru_get_snd_some c k arr hget]
      have hkey : JMap.hasKey c.map k.1 = true := by
        rw [JMap.hasKey_eq_isSome_get, hget]; rfl
      have hlen1 : (JMap.set (JMap.delete c.map k.1) k.1 arr).length = c.map.length := by
        rw [JMap.length_set_of_not_hasKey _ _ _ (JMap.hasKey_delete_self c.map k.1),
          JMap.length_delete_of_hasKey c.map k.1 hn hkey]
      exact ⟨JMap.keys_set_nodup _ _ _ (JMap.keys_delete_nodup _ _ hn),
        by rw [hlen1]; exact hlen, hmax⟩
  | none =>
      rw [lru_get_snd_none c k hget]
      exact ⟨hn, hlen, hmax⟩

theorem lru_run_inv_step {α : Type} (m : Int) (hm : 1 ≤ m) (ops : List (Op α)) :
    ∀ (c : LRU α), LRUInv m c → LRUInv m (c.run ops) := by
  induction ops with
  | nil => intro c h; exact h
  | cons op rest ih =>
      intro c h
      cases op with
      | addOp k v => exact ih _ (lru_add_inv m hm c k v h)
      | getOp k => exact ih _ (lru_get_inv m c k h)

theorem lru_run_inv {α : Type} (m : Int) (hm : 1 ≤ m) (ops : List (Op α)) :
    LRUInv m (LRU.run (LRU.new m) ops) :=
  lru_run_inv_step m hm ops (LRU.new m) ⟨List.nodup_nil, by simp [LRU.new]; omega, rfl⟩

/-- C2: once the flush cache's `size()` equals `maxSize`, the next `add`
drops every previously stored entry before inserting the new one: the new
entry is retrievable, every other key reads absent, and `size()` is 1. -/
theorem cache_flush_on_full {α : Type} (c : Cache α) (k : Int × Int) (v : α)
    (hfull : c.currentSize = c.maxSize) :
    (c.add k v).get k = some v ∧
    (∀ k', k' ≠ k → (c.add k v).get k' = none) ∧
    (c.add k v).size = 1 := by
  have hstep : c.add k v =
      { cache := [(k.1, [(k.2, v)])], maxSize := c.maxSize, currentSize := 1 } := by
    unfold Cache.add Cache.flushIfFull Cache.insertEntry
    rw [if_pos hfull]
    rfl
  refine ⟨?_, ?_, ?_⟩
  · rw [hstep]; simp [Cache.get, JMap.get]
  · intro k' hne
    rw [hstep]
    unfold Cache.get
    by_cases h1 : k.1 = k'.1
    · have h2 : ¬ k.2 = k'.2 := by
        intro h2
        exact hne (Prod.ext h1.symm h2.symm)
      simp [JMap.get, h1, h2]
    · simp [JMap.get, h1]
  · rw [hstep]; rfl

/-- The spec's concrete C2 scenario state: a flush cache of maximum size 3
filled with three distinct entries. -/
def fullCache3 : Cache Entry :=
  (((Cache.new 3 : Cache Entry).add (1, 1) (Entry.score 1)).add (2, 2)
    (Entry.score 2)).add (3, 3) (Entry.score 3)

/-- Witness for C2: the spec's concrete scenario — maxSize 3, three
distinct entries, then a fourth; only the fourth survives. -/
theorem cache_flush_on_full_witness :
    fullCache3.currentSize = fullCache3.maxSize ∧
    (fullCache3.add (4, 4) (Entry.score 4)).get (4, 4) = some (Entry.score 4) ∧
    (fullCache3.add (4, 4) (Entry.score 4)).get (1, 1) = none ∧
    (fullCache3.add (4, 4) (Entry.score 4)).get (2, 2) = none ∧
    (fullCache3.add (4, 4) (Entry.score 4)).get (3, 3) = none ∧
    (fullCache3.add (4, 4) (Entry.score 4)).size = 1 := by
  refine ⟨by decide, ?_, ?_, ?_, ?_, ?_⟩
  · exact (cache_flush_on_full fullCache3 (4, 4) (Entry.score 4) (by decide)).1
  · exact (cache_flush_on_full fullCache3 (4, 4) (Entry.score 4) (by decide)).2.1 (1, 1) (by decide)
  · exact (cache_flush_on_full fullCache3 (4, 4) (Entry.score 4) (by decide)).2.1 (2, 2) (by decide)
  · exact (cache_flush_on_full fullCache3 (4, 4) (Entry.score 4) (by decide)).2.1 (3, 3) (by decide)
  · exact (cache_flush_on_full fullCache3 (4, 4) (Entry.score 4) (by decide)).2.2

/-- C4 (counterexample): neither constructor rejects a non-positive
maximum size.  Built with maxSize 0, the flush cache is a usable object
that stores and retrieves an entry, and the LRU object is produced with
its operations defined (it evicts each group right after insertion). -/
theorem ctor_accepts_zero_size :
    ((Cache.new 0 : Cache Entry).add (5, 7) (Entry.score 42)).get (5, 7)
        = some (Entry.score 42) ∧
    ((Cache.new 0 : Cache Entry).add (5, 7) (Entry.score 42)).size = 1 ∧
    (LRU.new 0 : LRU Entry).maxSize = 0 ∧
    ((LRU.new 0 : LRU Entry).add (5, 7) (Entry.score 42)).size = 0 := by
  decide

/-- C4 (amended): construction with a non-positive maximum succeeds and
merely stores the value — there is no validation.  The flush cache built
this way still stores and retrieves entries; the LRU built this way evicts
the group it just inserted, ending every `add` with zero groups. -/
theorem ctor_no_validation {α : Type} (m : Int) (k : Int × Int) (v : α) (hm : m ≤ 0) :
    (LRU.new m : LRU α).maxSize = m ∧
    (Cache.new m : Cache α).maxSize = m ∧
    ((Cache.new m : Cache α).add k v).get k = some v ∧
    ((LRU.new m : LRU α).add k v).size = 0 := by
  refine ⟨rfl, rfl, ?_, ?_⟩
  · unfold Cache.new Cache.add Cache.flushIfFull Cache.insertEntry
    by_cases h0 : (0 : Int) = m
    · rw [if_pos h0]
      simp [Cache.get, JMap.get, JMap.set]
    · rw [if_neg h0]
      simp [Cache.get, JMap.get, JMap.set]
  · have hgt : ((1 : Nat) : Int) > m := by omega
    simp [LRU.add, LRU.new, LRU.size, LRU.writeMap, LRU.evict, JMap.get, JMap.set,
      JMap.delete, hgt]
    omega

/-- Witness for the amended C4 at maxSize −1. -/
theorem ctor_no_validation_witness :
    (-1 : Int) ≤ 0 ∧
    ((Cache.new (-1) : Cache Entry).add (3, 4) (Entry.score 0)).get (3, 4)
        = some (Entry.score 0) ∧
    ((LRU.new (-1) : LRU Entry).add (3, 4) (Entry.score 0)).size = 0 :=
  ⟨by decide,
   (ctor_no_validation (-1) (3, 4) (Entry.score 0) (by decide)).2.2.1,
   (ctor_no_validation (-1) (3, 4) (Entry.score 0) (by decide)).2.2.2⟩

/-- C3 (counterexample): in the flush cache, adding at an occupied
`(low, high)` does not always leave `size()` unchanged.  Reachable state:
maxSize 2 after two distinct adds (full); overwriting slot `(1, 1)` first
flushes the whole cache, so `size()` drops from 2 to 1. -/
theorem overwrite_full_cache_shrinks_size :
    (((Cache.new 2 : Cache Entry).add (1, 1) (Entry.score 1)).add (2, 2)
        (Entry.score 2)).get (1, 1) = some (Entry.score 1) ∧
    (((Cache.new 2 : Cache Entry).add (1, 1) (Entry.score 1)).add (2, 2)
        (Entry.score 2)).size = 2 ∧
    ((((Cache.new 2 : Cache Entry).add (1, 1) (Entry.score 1)).add (2, 2)
        (Entry.score 2)).add (1, 1) (Entry.score 9)).size = 1 ∧
    ((((Cache.new 2 : Cache Entry).add (1, 1) (Entry.score 1)).add (2, 2)
        (Entry.score 2)).add (1, 1) (Entry.score 9)).size
      ≠ (((Cache.new 2 : Cache Entry).add (1, 1) (Entry.score 1)).add (2, 2)
        (Entry.score 2)).size := by
  decide

/-- C3 (amended): overwriting an occupied `(low, high)` leaves `size()`
unchanged in the Recency Cache for every reachable state, and in the Flush
Cache whenever the cache is not yet full (`size() ≠ maxSize`); a full flush
cache instead flushes and ends with `size() = 1`. -/
theorem overwrite_preserves_size {α : Type} :
    (∀ (m : Int) (ops : List (Op α)) (k : Int × Int) (v : α),
        1 ≤ m →
        (LRU.run (LRU.new m) ops).peek k ≠ none →
        ((LRU.run (LRU.new m) ops).add k v).size = (LRU.run (LRU.new m) ops).size) ∧
    (∀ (c : Cache α) (k : Int × Int) (v : α),
        c.get k ≠ none → c.currentSize ≠ c.maxSize →
        (c.add k v).size = c.size) := by
  constructor
  · intro m ops k v hm hocc
    obtain ⟨hn, hlen, hmax⟩ := lru_run_inv m hm ops
    cases hget : JMap.get (LRU.run (LRU.new m) ops).map k.1 with
    | none =>
        exfalso
        apply hocc
        simp only [LRU.peek, hget]
    | some arr =>
        have hwlen : (LRU.writeMap (LRU.run (LRU.new m) ops) k v).length
            = (LRU.run (LRU.new m) ops).map.length :=
          lru_writeMap_length_some _ k v arr hn hget
        have hev : LRU.evict (LRU.run (LRU.new m) ops).maxSize
            (LRU.writeMap (LRU.run (LRU.new m) ops) k v)
            = LRU.writeMap (LRU.run (LRU.new m) ops) k v :=
          lru_evict_of_le _ _ (by rw [hwlen, hmax]; omega)
        show (LRU.evict (LRU.run (LRU.new m) ops).maxSize
            (LRU.writeMap (LRU.run (LRU.new m) ops) k v)).length
          = (LRU.run (LRU.new m) ops).map.length
        rw [hev, hwlen]
  · intro c k v hocc hne
    have hflush : c.flushIfFull = c := by
      unfold Cache.flushIfFull
      rw [if_neg hne]
    unfold Cache.add
    rw [hflush]
    unfold Cache.insertEntry
    cases hget : JMap.get c.cache k.1 with
    | none =>
        exfalso
        apply hocc
        simp only [Cache.get, hget]
    | some arr =>
        have hinner : JMap.get arr k.2 ≠ none := by
          intro h0
          apply hocc
          simp only [Cache.get, hget, h0]
        have hz : (if (JMap.get arr k.2).isNone = true then (1 : Int) else 0) = 0 := by
          cases hg : JMap.get arr k.2 with
          | none => exact absurd hg hinner
          | some w => simp [hg]
        simp only [hget]
        show c.currentSize + (if (JMap.get arr k.2).isNone = true then (1 : Int) else 0)
            = c.currentSize
        rw [hz]
        omega

/-- Witness for the amended C3: an LRU overwrite at an occupied slot and a
non-full flush-cache overwrite, both leaving `size()` unchanged. -/
theorem overwrite_preserves_size_witness :
    (LRU.run (LRU.new 2 : LRU Entry) [Op.addOp (1, 1) (Entry.score 5)]).peek (1, 1) ≠ none ∧
    ((LRU.run (LRU.new 2 : LRU Entry) [Op.addOp (1, 1) (Entry.score 5)]).add (1, 1)
        (Entry.score 6)).size
      = (LRU.run (LRU.new 2 : LRU Entry) [Op.addOp (1, 1) (Entry.score 5)]).size ∧
    ((Cache.new 5 : Cache Entry).add (1, 1) (Entry.score 5)).get (1, 1) ≠ none ∧
    (((Cache.new 5 : Cache Entry).add (1, 1) (Entry.score 5)).add (1, 1)
        (Entry.score 6)).size
      = ((Cache.new 5 : Cache Entry).add (1, 1) (Entry.score 5)).size := by
  refine ⟨by decide, ?_, by decide, ?_⟩
  · exact (@overwrite_preserves_size Entry).1 2 [Op.addOp (1, 1) (Entry.score 5)] (1, 1)
      (Entry.score 6) (by decide) (by decide)
  · exact (@overwrite_preserves_size Entry).2
      ((Cache.new 5 : Cache Entry).add (1, 1) (Entry.score 5)) (1, 1)
      (Entry.score 6) (by decide) (by decide)

/-- Pure two-level lookup on a raw map; `LRU.peek` is exactly this on the
cache's map. -/
def peek2 {α : Type} (m : JMap (JMap α)) (k : Int × Int) : Option α :=
  match JMap.get m k.1 with
  | some arr => JMap.get arr k.2
  | none => none

theorem lru_peek_eq_peek2 {α : Type} (c : LRU α) (k : Int × Int) :
    c.peek k = peek2 c.map k := rfl

theorem peek2_delete_none {α : Type} (m : JMap (JMap α)) (x : Int) (k : Int × Int)
    (h : peek2 m k = none) : peek2 (JMap.delete m x) k = none := by
  unfold peek2 at h ⊢
  by_cases hx : x = k.1
  · rw [← hx, JMap.get_delete_self]
  · rw [JMap.get_delete_ne m x k.1 hx]
    exact h

theorem lru_peek2_writeMap_none {α : Type} (c : LRU α) (kp k : Int × Int) (v : α)
    (hne : kp ≠ k) (h : peek2 c.map k = none) :
    peek2 (LRU.writeMap c kp v) k = none := by
  have hhigh : kp.1 = k.1 → ¬ kp.2 = k.2 := by
    intro h1 h2
    exact hne (Prod.ext h1 h2)
  cases hget : JMap.get c.map kp.1 with
  | some arr =>
      rw [lru_writeMap_some c kp v arr hget]
      unfold peek2 at h ⊢
      by_cases hlow : kp.1 = k.1
      · rw [← hlow] at h ⊢
        rw [JMap.get_set_self]
        rw [hget] at h
        show JMap.get (JMap.set arr kp.2 v) k.2 = none
        rw [JMap.get_set_ne arr kp.2 k.2 v (hhigh hlow)]
        exact h
      · rw [JMap.get_set_ne _ kp.1 k.1 _ hlow, JMap.get_delete_ne _ kp.1 k.1 hlow]
        exact h
  | none =>
      rw [lru_writeMap_none c kp v hget]
      unfold peek2 at h ⊢
      by_cases hlow : kp.1 = k.1
      · rw [← hlow, JMap.get_set_self]
        show JMap.get (JMap.set [] kp.2 v) k.2 = none
        rw [JMap.get_set_ne [] kp.2 k.2 v (hhigh hlow)]
        rfl
      · rw [JMap.get_set_ne _ kp.1 k.1 _ hlow]
        exact h

theorem lru_peek2_evict_none {α : Type} (ms : Int) (m : JMap (JMap α)) (k : Int × Int)
    (h : peek2 m k = none) : peek2 (LRU.evict ms m) k = none := by
  unfold LRU.evict
  by_cases hc : (m.length : Int) > ms
  · rw [if_pos hc]
    cases hhead : m.head? with
    | some e => exact peek2_delete_none m e.1 k h
    | none => exact h
  · rw [if_neg hc]
    exact h

theorem lru_add_peek_none {α : Type} (c : LRU α) (kp k : Int × Int) (v : α)
    (hne : kp ≠ k) (h : c.peek k = none) : (c.add kp v).peek k = none := by
  show peek2 (LRU.evict c.maxSize (LRU.writeMap c kp v)) k = none
  exact lru_peek2_evict_none c.maxSize _ k (lru_peek2_writeMap_none c kp k v hne h)

theorem lru_get_peek_eq {α : Type} (c : LRU α) (kp k : Int × Int) :
    ((c.get kp).2).peek k = c.peek k := by
  cases hget : JMap.get c.map kp.1 with
  | some arr =>
      rw [lru_get_snd_some c kp arr hget]
      show peek2 (JMap.set (JMap.delete c.map kp.1) kp.1 arr) k = peek2 c.map k
      unfold peek2
      by_cases hlow : kp.1 = k.1
      · rw [← hlow, JMap.get_set_self, hget]
      · rw [JMap.get_set_ne _ kp.1 k.1 _ hlow, JMap.get_delete_ne _ kp.1 k.1 hlow]
  | none =>
      rw [lru_get_snd_none c kp hget]

theorem lru_run_peek_none {α : Type} (ops : List (Op α)) (k : Int × Int) :
    ∀ (c : LRU α), (∀ op ∈ ops, op.isAddAt k = false) → c.peek k = none →
      (c.run ops).peek k = none := by
  induction ops with
  | nil => intro c _ h; exact h
  | cons op rest ih =>
      intro c hnever h
      cases op with
      | addOp kp v =>
          have hne : kp ≠ k := by
            have h0 := hnever _ (List.mem_cons_self _ _)
            simpa [Op.isAddAt] using h0
          exact ih _ (fun o ho => hnever o (List.mem_cons_of_mem _ ho))
            (lru_add_peek_none c kp k v hne h)
      | getOp kp =>
          refine ih _ (fun o ho => hnever o (List.mem_cons_of_mem _ ho)) ?_
          rw [lru_get_peek_eq c kp k]
          exact h

theorem cache_flushIfFull_get_none {α : Type} (c : Cache α) (k : Int × Int)
    (h : c.get k = none) : (c.flushIfFull).get k = none := by
  unfold Cache.flushIfFull
  by_cases hf : c.currentSize = c.maxSize
  · rw [if_pos hf]
    rfl
  · rw [if_neg hf]
    exact h

theorem cache_insertEntry_get_none {α : Type} (c : Cache α) (kp k : Int × Int) (v : α)
    (hne : kp ≠ k) (h : c.get k = none) : (c.insertEntry kp v).get k = none := by
  have hhigh : kp.1 = k.1 → ¬ kp.2 = k.2 := by
    intro h1 h2
    exact hne (Prod.ext h1 h2)
  unfold Cache.get at h ⊢
  cases hget : JMap.get c.cache kp.1 with
  | some arr =>
      unfold Cache.insertEntry
      rw [hget]
      show (match JMap.get (JMap.set c.cache kp.1 (JMap.set arr kp.2 v)) k.1 with
        | some arr => JMap.get arr k.2
        | none => none) = none
      by_cases hlow : kp.1 = k.1
      · rw [← hlow] at h ⊢
        rw [JMap.get_set_self]
        rw [hget] at h
        show JMap.get (JMap.set arr kp.2 v) k.2 = none
        rw [JMap.get_set_ne arr kp.2 k.2 v (hhigh hlow)]
        exact h
      · rw [JMap.get_set_ne _ kp.1 k.1 _ hlow]
        exact h
  | none =>
      unfold Cache.insertEntry
      rw [hget]
      show (match JMap.get (JMap.set c.cache kp.1 (JMap.set [] kp.2 v)) k.1 with
        | some arr => JMap.get arr k.2
        | none => none) = none
      by_cases hlow : kp.1 = k.1
      · rw [← hlow, JMap.get_set_self]
        show JMap.get (JMap.set [] kp.2 v) k.2 = none
        rw [JMap.get_set_ne [] kp.2 k.2 v (hhigh hlow)]
        rfl
      · rw [JMap.get_set_ne _ kp.1 k.1 _ hlow]
        exact h

theorem cache_add_get_none {α : Type} (c : Cache α) (kp k : Int × Int) (v : α)
    (hne : kp ≠ k) (h : c.get k = none) : (c.add kp v).get k = none := by
  unfold Cache.add
  exact cache_insertEntry_get_none _ kp k v hne (cache_flushIfFull_get_none c k h)

theorem cache_run_get_none {α : Type} (ops : List (Op α)) (k : Int × Int) :
    ∀ (c : Cache α), (∀ op ∈ ops, op.isAddAt k = false) → c.get k = none →
      (c.run ops).get k = none := by
  induction ops with
  | nil => intro c _ h; exact h
  | cons op rest ih =>
      intro c hnever h
      cases op with
      | addOp kp v =>
          have hne : kp ≠ k := by
            have h0 := hnever _ (List.mem_cons_self _ _)
            simpa [Op.isAddAt] using h0
          exact ih _ (fun o ho => hnever o (List.mem_cons_of_mem _ ho))
            (cache_add_get_none c kp k v hne h)
      | getOp kp =>
          exact ih _ (fun o ho => hnever o (List.mem_cons_of_mem _ ho)) h

/-- C9: in both cache types, `get` on a `(low, high)` pair at which no add
was ever issued returns the explicit absent result `none` — never an error
— and that result is distinguishable from every storable entry, including
a stored score of zero. -/
theorem absent_for_never_stored (m1 m2 : Int) (ops : List (Op Entry)) (k : Int × Int)
    (hnever : ∀ op ∈ ops, op.isAddAt k = false) :
    ((LRU.run (LRU.new m1) ops).get k).1 = none ∧
    (Cache.run (Cache.new m2) ops).get k = none ∧
    (∀ e : Entry, some e ≠ (none : Option Entry)) := by
  refine ⟨?_, ?_, fun e => by simp⟩
  · rw [lru_get_fst_eq_peek]
    exact lru_run_peek_none ops k (LRU.new m1) hnever rfl
  · exact cache_run_get_none ops k (Cache.new m2) hnever rfl

/-- Witness for C9: a trace that stores at `(1, 2)` and `(0, 3)` and probes
`(0, 0)`; looking up the never-stored `(0, 0)` yields `none` in both
caches, and `none` differs from a stored zero score. -/
theorem absent_for_never_stored_witness :
    (∀ op ∈ ([Op.addOp (1, 2) (Entry.score 5), Op.getOp (0, 0),
        Op.addOp (0, 3) (Entry.score 0)] : List (Op Entry)),
      op.isAddAt (0, 0) = false) ∧
    ((LRU.run (LRU.new 2) [Op.addOp (1, 2) (Entry.score 5), Op.getOp (0, 0),
        Op.addOp (0, 3) (Entry.score 0)]).get (0, 0)).1 = none ∧
    (Cache.run (Cache.new 2) [Op.addOp (1, 2) (Entry.score 5), Op.getOp (0, 0),
        Op.addOp (0, 3) (Entry.score 0)]).get (0, 0) = none ∧
    some (Entry.score 0) ≠ (none : Option Entry) := by
  have h := absent_for_never_stored 2 2
    [Op.addOp (1, 2) (Entry.score 5), Op.getOp (0, 0), Op.addOp (0, 3) (Entry.score 0)]
    (0, 0) (by decide)
  exact ⟨by decide, h.1, h.2.1, h.2.2 (Entry.score 0)⟩

/-- Total number of stored entries: the sum of the inner array sizes. -/
def Cache.entryCount {α : Type} (c : Cache α) : Nat :=
  (c.cache.map (fun p => p.2.length)).sum

/-- The list of occupied `(low, high)` slots of a flush cache. -/
def Cache.slotList {α : Type} (c : Cache α) : List (Int × Int) :=
  c.cache.flatMap (fun p => p.2.map (fun q => (p.1, q.1)))

theorem cache_slotList_length {α : Type} (c : Cache α) :
    c.slotList.length = Cache.entryCount c := by
  unfold Cache.slotList Cache.entryCount
  rw [List.length_flatMap]
  congr 1
  apply List.map_congr_left
  intro p _
  simp

theorem cache_slotList_nodup {α : Type} (c : Cache α)
    (hok : (JMap.keys c.cache).Nodup)
    (hik : ∀ p ∈ c.cache, (JMap.keys p.2).Nodup) : c.slotList.Nodup := by
  unfold Cache.slotList
  rw [List.nodup_flatMap]
  constructor
  · intro p hp
    have h1 : p.2.map (fun q => (p.1, q.1)) = (JMap.keys p.2).map (fun x => (p.1, x)) := by
      unfold JMap.keys
      rw [List.map_map]
      simp [Function.comp]
    rw [h1]
    refine List.Nodup.map ?_ (hik p hp)
    intro a b hab
    simpa using congrArg Prod.snd hab
  · have hpw : List.Pairwise (fun a b : Int × JMap α => ¬ a.1 = b.1) c.cache := by
      have h2 : List.Pairwise (fun a b : Int => a ≠ b) (c.cache.map (fun p => p.1)) := hok
      rw [List.pairwise_map] at h2
      exact h2
    have hdisj : ∀ (a b : Int × JMap α), ¬ a.1 = b.1 →
        List.Disjoint (a.2.map (fun q => (a.1, q.1))) (b.2.map (fun q => (b.1, q.1))) := by
      intro a b hne x hxa hxb
      simp only [List.mem_map] at hxa hxb
      obtain ⟨qa, _, hqa⟩ := hxa
      obtain ⟨qb, _, hqb⟩ := hxb
      apply hne
      have hx := hqa.trans hqb.symm
      exact (Prod.ext_iff.mp hx).1
    exact hpw.imp (fun hab => hdisj _ _ hab)

theorem jmap_get_mem {α : Type} (m : JMap α) (k : Int) (arr : α)
    (h : JMap.get m k = some arr) : (k, arr) ∈ m := by
  induction m with
  | nil => simp [JMap.get] at h
  | cons p rest ih =>
      obtain ⟨k0, v0⟩ := p
      by_cases h0 : k0 = k
      · subst h0
        simp at h
        subst h
        exact List.mem_cons_self _ _
      · simp only [JMap.get_cons, if_neg h0] at h
        exact List.mem_cons_of_mem _ (ih h)

theorem jmap_mem_set {α : Type} (m : JMap α) (k : Int) (v : α) (p : Int × α)
    (h : p ∈ JMap.set m k v) : p = (k, v) ∨ p ∈ m := by
  induction m with
  | nil =>
      simp only [JMap.set, List.mem_singleton] at h
      exact Or.inl h
  | cons q rest ih =>
      obtain ⟨k0, v0⟩ := q
      by_cases h0 : k0 = k
      · simp only [JMap.set, if_pos h0, List.mem_cons] at h
        rcases h with h | h
        · exact Or.inl h
        · exact Or.inr (List.mem_cons_of_mem _ h)
      · simp only [JMap.set, if_neg h0, List.mem_cons] at h
        rcases h with h | h
        · exact Or.inr (by rw [h]; exact List.mem_cons_self _ _)
        · rcases ih h with h1 | h1
          · exact Or.inl h1
          · exact Or.inr (List.mem_cons_of_mem _ h1)

theorem sum_lengths_set_of_get {α : Type} (m : JMap (JMap α)) (k : Int) (arr w : JMap α)
    (h : JMap.get m k = some arr) :
    ((JMap.set m k w).map (fun p => p.2.length)).sum + arr.length
      = (m.map (fun p => p.2.length)).sum + w.length := by
  induction m with
  | nil => simp [JMap.get] at h
  | cons q rest ih =>
      obtain ⟨k0, v0⟩ := q
      by_cases h0 : k0 = k
      · simp only [JMap.get_cons, if_pos h0, Option.some.injEq] at h
        subst h
        simp only [JMap.set, if_pos h0, List.map_cons, List.sum_cons]
        omega
      · simp only [JMap.get_cons, if_neg h0] at h
        simp only [JMap.set, if_neg h0, List.map_cons, List.sum_cons]
        have := ih h
        omega

theorem sum_lengths_set_of_not_hasKey {α : Type} (m : JMap (JMap α)) (k : Int)
    (w : JMap α) (h : JMap.hasKey m k = false) :
    ((JMap.set m k w).map (fun p => p.2.length)).sum
      = (m.map (fun p => p.2.length)).sum + w.length := by
  rw [JMap.set_eq_append_of_not_hasKey m k w h]
  simp

/-- Invariant of every flush cache reachable from `new M` for `M ≥ 1`:
unique outer and inner keys, counter equal to the stored-entry count,
counter at most `M`, and the configured maximum. -/
def CacheInv {α : Type} (M : Int) (c : Cache α) : Prop :=
  (JMap.keys c.cache).Nodup ∧
  (∀ p ∈ c.cache, (JMap.keys p.2).Nodup) ∧
  c.currentSize = (Cache.entryCount c : Int) ∧
  c.currentSize ≤ M ∧
  c.maxSize = M

theorem cache_insertEntry_inv {α : Type} (M : Int) (c : Cache α) (k : Int × Int) (v : α)
    (hroom : c.currentSize < M) (h : CacheInv M c) : CacheInv M (c.insertEntry k v) := by
  obtain ⟨hok, hik, hcount, hle, hmax⟩ := h
  unfold Cache.insertEntry
  cases hget : JMap.get c.cache k.1 with
  | some arr =>
      refine ⟨?_, ?_, ?_, ?_, hmax⟩
      · show (JMap.keys (JMap.set c.cache k.1 (JMap.set arr k.2 v))).Nodup
        exact JMap.keys_set_nodup _ _ _ hok
      · show ∀ p ∈ JMap.set c.cache k.1 (JMap.set arr k.2 v), (JMap.keys p.2).Nodup
        intro p hp
        rcases jmap_mem_set _ _ _ p hp with hp1 | hp2
        · subst hp1
          show (JMap.keys (JMap.set arr k.2 v)).Nodup
          exact JMap.keys_set_nodup _ _ _ (hik _ (jmap_get_mem _ _ _ hget))
        · exact hik p hp2
      · show c.currentSize + (if (JMap.get arr k.2).isNone = true then (1 : Int) else 0)
            = ((((JMap.set c.cache k.1 (JMap.set arr k.2 v)).map
                (fun p => p.2.length)).sum : Nat) : Int)
        have hsum := sum_lengths_set_of_get c.cache k.1 arr (JMap.set arr k.2 v) hget
        unfold Cache.entryCount at hcount
        cases hgi : JMap.get arr k.2 with
        | none =>
            have hkey : JMap.hasKey arr k.2 = false := by
              rw [JMap.hasKey_eq_isSome_get, hgi]; rfl
            have hlenw := JMap.length_set_of_not_hasKey arr k.2 v hkey
            have hif : (if (none : Option α).isNone = true then (1 : Int) else 0) = 1 := by
              simp
            rw [hif]
            omega
        | some w =>
            have hkey : JMap.hasKey arr k.2 = true := by
              rw [JMap.hasKey_eq_isSome_get, hgi]; rfl
            have hlenw := JMap.length_set_of_hasKey arr k.2 v hkey
            have hif : (if (some w).isNone = true then (1 : Int) else 0) = 0 := by
              simp
            rw [hif]
            omega
      · show c.currentSize + (if (JMap.get arr k.2).isNone = true then (1 : Int) else 0) ≤ M
        by_cases hgi : (JMap.get arr k.2).isNone = true
        · rw [if_pos hgi]; omega
        · rw [if_neg hgi]; omega
  | none =>
      have hkey : JMap.hasKey c.cache k.1 = false := by
        rw [JMap.hasKey_eq_isSome_get, hget]; rfl
      refine ⟨?_, ?_, ?_, ?_, hmax⟩
      · show (JMap.keys (JMap.set c.cache k.1 (JMap.set [] k.2 v))).Nodup
        exact JMap.keys_set_nodup _ _ _ hok
      · show ∀ p ∈ JMap.set c.cache k.1 (JMap.set [] k.2 v), (JMap.keys p.2).Nodup
        intro p hp
        rcases jmap_mem_set _ _ _ p hp with hp1 | hp2
        · subst hp1
          show (JMap.keys (JMap.set ([] : JMap α) k.2 v)).Nodup
          simp [JMap.set, JMap.keys]
        · exact hik p hp2
      · show c.currentSize + 1
            = ((((JMap.set c.cache k.1 (JMap.set [] k.2 v)).map
                (fun p => p.2.length)).sum : Nat) : Int)
        have hsum := sum_lengths_set_of_not_hasKey c.cache k.1 (JMap.set [] k.2 v) hkey
        unfold Cache.entryCount at hcount
        have hone : (JMap.set ([] : JMap α) k.2 v).length = 1 := rfl
        omega
      · show c.currentSize + 1 ≤ M
        omega

theorem cache_flushIfFull_inv {α : Type} (M : Int) (c : Cache α) (hm : 1 ≤ M)
    (h : CacheInv M c) : CacheInv M c.flushIfFull ∧ (c.flushIfFull).currentSize < M := by
  obtain ⟨hok, hik, hcount, hle, hmax⟩ := h
  unfold Cache.flushIfFull
  by_cases hf : c.currentSize = c.maxSize
  · rw [if_pos hf]
    refine ⟨⟨?_, ?_, ?_, ?_, hmax⟩, ?_⟩
    · show (JMap.keys ([] : JMap (JMap α))).Nodup
      simp [JMap.keys]
    · intro p hp
      simp at hp
    · show (0 : Int) = (((([] : JMap (JMap α)).map (fun p => p.2.length)).sum : Nat) : Int)
      rfl
    · show (0 : Int) ≤ M
      omega
    · show (0 : Int) < M
      omega
  · rw [if_neg hf]
    rw [hmax] at hf
    exact ⟨⟨hok, hik, hcount, hle, hmax⟩, by omega⟩

theorem cache_add_inv {α : Type} (M : Int) (c : Cache α) (k : Int × Int) (v : α)
    (hm : 1 ≤ M) (h : CacheInv M c) : CacheInv M (c.add k v) := by
  obtain ⟨h1, h2⟩ := cache_flushIfFull_inv M c hm h
  unfold Cache.add
  exact cache_insertEntry_inv M _ k v h2 h1

theorem cache_new_inv {α : Type} (M : Int) (hm : 1 ≤ M) :
    CacheInv M (Cache.new M : Cache α) := by
  refine ⟨?_, ?_, ?_, ?_, rfl⟩
  · show (JMap.keys ([] : JMap (JMap α))).Nodup
    simp [JMap.keys]
  · intro p hp
    simp [Cache.new] at hp
  · rfl
  · show (0 : Int) ≤ M
    omega

theorem cache_run_inv {α : Type} (M : Int) (hm : 1 ≤ M) (ops : List (Op α)) :
    ∀ (c : Cache α), CacheInv M c → CacheInv M (c.run ops) := by
  induction ops with
  | nil => intro c h; exact h
  | cons op rest ih =>
      intro c h
      cases op with
      | addOp k v => exact ih _ (cache_add_inv M c k v hm h)
      | getOp k => exact ih _ h

/-- C10: for every flush cache built with a maximum of at least 1 and any
operation sequence, `size()` never exceeds `maxSize`, and the counter
always equals the number of distinct `(low, high)` slots currently holding
an entry. -/
theorem cache_size_invariant {α : Type} (m : Int) (hm : 1 ≤ m) (ops : List (Op α)) :
    (Cache.run (Cache.new m) ops).size ≤ m ∧
    (Cache.run (Cache.new m) ops).size
      = ((Cache.run (Cache.new m) ops).slotList.dedup.length : Int) := by
  obtain ⟨hok, hik, hcount, hle, hmax⟩ :=
    cache_run_inv m hm ops (Cache.new m) (cache_new_inv m hm)
  refine ⟨hle, ?_⟩
  have hnd : (Cache.run (Cache.new m) ops).slotList.Nodup :=
    cache_slotList_nodup _ hok hik
  rw [List.dedup_eq_self.mpr hnd, cache_slotList_length]
  exact hcount

/-- Witness for C10: maxSize 2 with two entries sharing a `low` group;
the counter is 2, matching the two distinct occupied slots. -/
theorem cache_size_invariant_witness :
    (1 : Int) ≤ 2 ∧
    (Cache.run (Cache.new 2 : Cache Entry) [Op.addOp (1, 1) (Entry.score 3),
        Op.addOp (1, 2) (Entry.score 4)]).size ≤ 2 ∧
    (Cache.run (Cache.new 2 : Cache Entry) [Op.addOp (1, 1) (Entry.score 3),
        Op.addOp (1, 2) (Entry.score 4)]).size
      = ((Cache.run (Cache.new 2 : Cache Entry) [Op.addOp (1, 1) (Entry.score 3),
        Op.addOp (1, 2) (Entry.score 4)]).slotList.dedup.length : Int) := by
  have h := @cache_size_invariant Entry 2 (by decide)
    [Op.addOp (1, 1) (Entry.score 3), Op.addOp (1, 2) (Entry.score 4)]
  exact ⟨by decide, h.1, h.2⟩

/-! ### The LRU recency order

To state which group an eviction removes, the runs are instrumented with a
clock: `lastTouch l` records the step at which group `l` was last touched
by a `get` that found it or by an `add`.  The invariant below says the
map's iteration order lists the groups by strictly increasing last touch,
so the first key — the one `LRU.add` evicts on overflow — is always the
least recently touched group. -/

theorem hasKey_append_left {α : Type} (m m2 : JMap α) (k : Int)
    (h : JMap.hasKey m k = true) : JMap.hasKey (m ++ m2) k = true := by
  induction m with
  | nil => simp [JMap.hasKey] at h
  | cons p rest ih =>
      obtain ⟨k0, v0⟩ := p
      by_cases h0 : k0 = k
      · simp [h0]
      · simp only [JMap.hasKey_cons, if_neg h0] at h
        simp only [List.cons_append, JMap.hasKey_cons, if_neg h0]
        exact ih h

theorem jmap_get_none_of_not_hasKey {α : Type} (m : JMap α) (k : Int)
    (h : JMap.hasKey m k = false) : JMap.get m k = none := by
  rw [JMap.hasKey_eq_isSome_get] at h
  cases hg : JMap.get m k with
  | none => rfl
  | some w => rw [hg] at h; simp at h

theorem filter_out_of_not_mem (l : List Int) (x : Int) (h : x ∉ l) :
    l.filter (fun y => !decide (y = x)) = l := by
  apply List.filter_eq_self.mpr
  intro y hy
  have hyx : ¬ y = x := fun e => h (e ▸ hy)
  simp [hyx]

theorem keys_append {α : Type} (a b : JMap α) :
    JMap.keys (a ++ b) = JMap.keys a ++ JMap.keys b := by
  unfold JMap.keys
  exact List.map_append _ _ _

theorem lru_writeMap_keys_some {α : Type} (c : LRU α) (k : Int × Int) (v : α)
    (arr : JMap α) (hget : JMap.get c.map k.1 = some arr) :
    JMap.keys (LRU.writeMap c k v)
      = (JMap.keys c.map).filter (fun y => !decide (y = k.1)) ++ [k.1] := by
  rw [lru_writeMap_some c k v arr hget,
    JMap.set_eq_append_of_not_hasKey _ _ _ (JMap.hasKey_delete_self c.map k.1),
    keys_append, JMap.keys_delete]
  rfl

theorem lru_writeMap_keys_none {α : Type} (c : LRU α) (k : Int × Int) (v : α)
    (hget : JMap.get c.map k.1 = none) :
    JMap.keys (LRU.writeMap c k v) = JMap.keys c.map ++ [k.1] := by
  have hkey : JMap.hasKey c.map k.1 = false := by
    rw [JMap.hasKey_eq_isSome_get, hget]; rfl
  rw [lru_writeMap_none c k v hget, JMap.set_eq_append_of_not_hasKey _ _ _ hkey,
    keys_append]
  rfl

theorem lru_evict_keys_sublist {α : Type} (ms : Int) (m : JMap (JMap α)) :
    List.Sublist (JMap.keys (LRU.evict ms m)) (JMap.keys m) := by
  unfold LRU.evict
  by_cases hc : (m.length : Int) > ms
  · rw [if_pos hc]
    cases hh : m.head? with
    | some e =>
        rw [JMap.keys_delete]
        exact List.filter_sublist _
    | none => exact List.Sublist.refl _
  · rw [if_neg hc]

theorem pairwise_touch_update (lt : Int → Nat) (n : Nat) (x : Int) (l : List Int)
    (hpw : List.Pairwise (fun a b => lt a < lt b) l) (hbound : ∀ y ∈ l, lt y < n) :
    List.Pairwise
      (fun a b => Function.update lt x n a < Function.update lt x n b)
      (l.filter (fun y => !decide (y = x)) ++ [x]) := by
  rw [List.pairwise_append]
  refine ⟨?_, List.pairwise_singleton _ _, ?_⟩
  · have hpw2 : List.Pairwise (fun a b => lt a < lt b)
        (l.filter (fun y => !decide (y = x))) :=
      hpw.sublist (List.filter_sublist l)
    refine hpw2.imp_of_mem ?_
    intro a b ha hb hab
    have hax : ¬ a = x := by simpa using (List.mem_filter.mp ha).2
    have hbx : ¬ b = x := by simpa using (List.mem_filter.mp hb).2
    rw [Function.update_noteq hax n lt, Function.update_noteq hbx n lt]
    exact hab
  · intro a ha b hb
    rw [List.mem_singleton] at hb
    rw [hb]
    have haf := List.mem_filter.mp ha
    have hax : ¬ a = x := by simpa using haf.2
    rw [Function.update_noteq hax n lt, Function.update_same x n lt]
    exact hbound a haf.1

/-- A run instrumented with touch times: the cache, the step at which each
group key was last touched, and the step clock. -/
structure Trace (α : Type) where
  cache : LRU α
  lastTouch : Int → Nat
  clock : Nat

/-- One instrumented step: an `add` touches its `low` group; a `get`
touches the group only when the group exists (only then does the source
refresh it). -/
def traceStep {α : Type} (st : Trace α) : Op α → Trace α
  | Op.addOp k v =>
      ⟨st.cache.add k v, Function.update st.lastTouch k.1 st.clock, st.clock + 1⟩
  | Op.getOp k =>
      ⟨(st.cache.get k).2,
        if (JMap.get st.cache.map k.1).isSome
          then Function.update st.lastTouch k.1 st.clock
          else st.lastTouch,
        st.clock + 1⟩

/-- The instrumented run from a fresh cache. -/
def traceRun {α : Type} (m : Int) (ops : List (Op α)) : Trace α :=
  ops.foldl traceStep ⟨LRU.new m, fun _ => 0, 1⟩

theorem traceRun_cache_aux {α : Type} (ops : List (Op α)) :
    ∀ st : Trace α, (ops.foldl traceStep st).cache = st.cache.run ops := by
  induction ops with
  | nil => intro st; rfl
  | cons op rest ih =>
      intro st
      cases op with
      | addOp k v => exact ih _
      | getOp k => exact ih _

theorem traceRun_cache {α : Type} (m : Int) (ops : List (Op α)) :
    (traceRun m ops).cache = LRU.run (LRU.new m) ops :=
  traceRun_cache_aux ops _

/-- Recency invariant: iteration order = strictly increasing last touch,
and all touches lie below the clock. -/
def TraceInv {α : Type} (st : Trace α) : Prop :=
  List.Pairwise (fun a b => st.lastTouch a < st.lastTouch b)
    (JMap.keys st.cache.map) ∧
  ∀ y ∈ JMap.keys st.cache.map, st.lastTouch y < st.clock

theorem traceStep_inv {α : Type} (st : Trace α) (op : Op α) (h : TraceInv st) :
    TraceInv (traceStep st op) := by
  obtain ⟨hpw, hbound⟩ := h
  cases op with
  | addOp k v =>
      have hw : List.Pairwise
            (fun a b => Function.update st.lastTouch k.1 st.clock a
              < Function.update st.lastTouch k.1 st.clock b)
            (JMap.keys (LRU.writeMap st.cache k v)) ∧
          ∀ y ∈ JMap.keys (LRU.writeMap st.cache k v),
            Function.update st.lastTouch k.1 st.clock y < st.clock + 1 := by
        cases hget : JMap.get st.cache.map k.1 with
        | some arr =>
            rw [lru_writeMap_keys_some st.cache k v arr hget]
            constructor
            · exact pairwise_touch_update _ _ _ _ hpw hbound
            · intro y hy
              rcases List.mem_append.mp hy with hy | hy
              · have hyl := List.mem_filter.mp hy
                have hyx : ¬ y = k.1 := by simpa using hyl.2
                rw [Function.update_noteq hyx _ _]
                exact lt_trans (hbound y hyl.1) (Nat.lt_succ_self _)
              · rw [List.mem_singleton] at hy
                subst hy
                rw [Function.update_same]
                exact Nat.lt_succ_self _
        | none =>
            have hkey : JMap.hasKey st.cache.map k.1 = false := by
              rw [JMap.hasKey_eq_isSome_get, hget]; rfl
            have hnotmem : k.1 ∉ JMap.keys st.cache.map := by
              intro hmem
              rw [JMap.hasKey_of_mem_keys _ _ hmem] at hkey
              exact Bool.noConfusion hkey
            rw [lru_writeMap_keys_none st.cache k v hget]
            have hfs : (JMap.keys st.cache.map).filter (fun y => !decide (y = k.1))
                = JMap.keys st.cache.map := filter_out_of_not_mem _ _ hnotmem
            constructor
            · have hput :=
                pairwise_touch_update st.lastTouch st.clock k.1
                  (JMap.keys st.cache.map) hpw hbound
              rw [hfs] at hput
              exact hput
            · intro y hy
              rcases List.mem_append.mp hy with hy | hy
              · have hyx : ¬ y = k.1 := fun e => hnotmem (e ▸ hy)
                rw [Function.update_noteq hyx _ _]
                exact lt_trans (hbound y hy) (Nat.lt_succ_self _)
              · rw [List.mem_singleton] at hy
                subst hy
                rw [Function.update_same]
                exact Nat.lt_succ_self _
      constructor
      · show List.Pairwise _
          (JMap.keys (LRU.evict st.cache.maxSize (LRU.writeMap st.cache k v)))
        exact hw.1.sublist (lru_evict_keys_sublist _ _)
      · intro y hy
        exact hw.2 y ((lru_evict_keys_sublist _ _).subset hy)
  | getOp k =>
      cases hget : JMap.get st.cache.map k.1 with
      | some arr =>
          have hif : (JMap.get st.cache.map k.1).isSome = true := by rw [hget]; rfl
          have hstep : traceStep st (Op.getOp k) =
              ⟨(st.cache.get k).2, Function.update st.lastTouch k.1 st.clock,
                st.clock + 1⟩ := by
            simp [traceStep, hif]
          rw [hstep]
          have hkeys : JMap.keys ((st.cache.get k).2).map
              = (JMap.keys st.cache.map).filter (fun y => !decide (y = k.1)) ++ [k.1] := by
            rw [lru_get_snd_some st.cache k arr hget]
            show JMap.keys (JMap.set (JMap.delete st.cache.map k.1) k.1 arr) = _
            rw [JMap.set_eq_append_of_not_hasKey _ _ _
                (JMap.hasKey_delete_self st.cache.map k.1),
              keys_append, JMap.keys_delete]
            rfl
          constructor
          · show List.Pairwise _ (JMap.keys ((st.cache.get k).2).map)
            rw [hkeys]
            exact pairwise_touch_update _ _ _ _ hpw hbound
          · intro y hy
            rw [hkeys] at hy
            rcases List.mem_append.mp hy with hy | hy
            · have hyl := List.mem_filter.mp hy
              have hyx : ¬ y = k.1 := by simpa using hyl.2
              show Function.update st.lastTouch k.1 st.clock y < st.clock + 1
              rw [Function.update_noteq hyx _ _]
              exact lt_trans (hbound y hyl.1) (Nat.lt_succ_self _)
            · rw [List.mem_singleton] at hy
              subst hy
              show Function.update st.lastTouch k.1 st.clock k.1 < st.clock + 1
              rw [Function.update_same]
              exact Nat.lt_succ_self _
      | none =>
          have hif : (JMap.get st.cache.map k.1).isSome = false := by rw [hget]; rfl
          have hc := lru_get_snd_none st.cache k hget
          have hstep : traceStep st (Op.getOp k) =
              ⟨st.cache, st.lastTouch, st.clock + 1⟩ := by
            simp [traceStep, hif, hc]
          rw [hstep]
          exact ⟨hpw, fun y hy => lt_trans (hbound y hy) (Nat.lt_succ_self _)⟩

theorem traceRun_inv_aux {α : Type} (ops : List (Op α)) :
    ∀ st : Trace α, TraceInv st → TraceInv (ops.foldl traceStep st) := by
  induction ops with
  | nil => intro st h; exact h
  | cons op rest ih =>
      intro st h
      exact ih _ (traceStep_inv st op h)

theorem traceRun_inv {α : Type} (m : Int) (ops : List (Op α)) :
    TraceInv (traceRun m ops) := by
  refine traceRun_inv_aux ops _ ⟨?_, ?_⟩
  · show List.Pairwise _ (JMap.keys ([] : JMap (JMap α)))
    simp [JMap.keys]
  · intro y hy
    simp [JMap.keys, LRU.new] at hy

/-- The spec's concrete C1 scenario: maxSize 2; add group A (low 0), add
group B (low 1), `get(A)` refreshing A, then add group C (low 2). -/
def lruScenario : LRU Entry :=
  (((((LRU.new 2 : LRU Entry).add (0, 5) (Entry.score 1)).add (1, 6)
      (Entry.score 2)).get (0, 5)).2).add (2, 7) (Entry.score 3)

/-- C1: the Recency Cache invariant.  (i) After any operation sequence on a
cache built with positive maxSize, `size() ≤ maxSize`.  (ii) The
instrumented run computes the same cache as the plain run.  (iii) When an
`add` makes the group count exceed maxSize, the evicted group is exactly
the first key in iteration order — that group disappears, the new group and
every other group survive — and it is the one least recently touched by
`get` or `add`.  (iv) The concrete maxSize 2 scenario: after add A, add B,
get(A), add C, the cache holds A and C and B is evicted. -/
theorem lru_capacity_and_eviction {α : Type} (m : Int) (hm : 1 ≤ m) (ops : List (Op α)) :
    ((LRU.run (LRU.new m) ops).size : Int) ≤ m ∧
    (traceRun m ops).cache = LRU.run (LRU.new m) ops ∧
    (∀ (k : Int × Int) (v : α) (e : Int × JMap α),
        JMap.hasKey (LRU.run (LRU.new m) ops).map k.1 = false →
        ((LRU.run (LRU.new m) ops).size : Int) + 1 > m →
        (LRU.run (LRU.new m) ops).map.head? = some e →
        JMap.hasKey ((LRU.run (LRU.new m) ops).add k v).map e.1 = false ∧
        JMap.hasKey ((LRU.run (LRU.new m) ops).add k v).map k.1 = true ∧
        (∀ l, l ≠ e.1 → JMap.hasKey (LRU.run (LRU.new m) ops).map l = true →
          JMap.hasKey ((LRU.run (LRU.new m) ops).add k v).map l = true) ∧
        (∀ l, l ≠ e.1 → JMap.hasKey (LRU.run (LRU.new m) ops).map l = true →
          (traceRun m ops).lastTouch e.1 < (traceRun m ops).lastTouch l)) ∧
    (lruScenario.size = 2 ∧
      (lruScenario.get (0, 5)).1 = some (Entry.score 1) ∧
      (lruScenario.get (2, 7)).1 = some (Entry.score 3) ∧
      (lruScenario.get (1, 6)).1 = none) := by
  obtain ⟨hn, hlen, hmax⟩ := lru_run_inv m hm ops
  obtain ⟨hpw0, hbound0⟩ := traceRun_inv m ops
  have hc := traceRun_cache m ops
  refine ⟨hlen, hc, ?_, by decide⟩
  intro k v e hkey hover hhead
  have hget : JMap.get (LRU.run (LRU.new m) ops).map k.1 = none :=
    jmap_get_none_of_not_hasKey _ _ hkey
  have hw : LRU.writeMap (LRU.run (LRU.new m) ops) k v
      = JMap.set (LRU.run (LRU.new m) ops).map k.1 (JMap.set [] k.2 v) :=
    lru_writeMap_none _ k v hget
  have hlen2 : (LRU.writeMap (LRU.run (LRU.new m) ops) k v).length
      = (LRU.run (LRU.new m) ops).map.length + 1 :=
    lru_writeMap_length_none _ k v hget
  have hcond : ((LRU.writeMap (LRU.run (LRU.new m) ops) k v).length : Int)
      > (LRU.run (LRU.new m) ops).maxSize := by
    rw [hlen2, hmax]
    push_cast
    exact hover
  obtain ⟨rest, hcm⟩ : ∃ rest, (LRU.run (LRU.new m) ops).map = e :: rest := by
    cases hcase : (LRU.run (LRU.new m) ops).map with
    | nil =>
        rw [hcase] at hhead
        simp at hhead
    | cons e0 rest =>
        rw [hcase] at hhead
        simp only [List.head?_cons, Option.some.injEq] at hhead
        exact ⟨rest, by rw [hhead]⟩
  have hhead2 : (LRU.writeMap (LRU.run (LRU.new m) ops) k v).head? = some e := by
    rw [hw, JMap.set_eq_append_of_not_hasKey _ _ _ hkey, hcm]
    rfl
  have hadd : ((LRU.run (LRU.new m) ops).add k v).map
      = JMap.delete (LRU.writeMap (LRU.run (LRU.new m) ops) k v) e.1 := by
    show LRU.evict (LRU.run (LRU.new m) ops).maxSize
        (LRU.writeMap (LRU.run (LRU.new m) ops) k v) = _
    unfold LRU.evict
    rw [if_pos hcond, hhead2]
  have hek : e.1 ≠ k.1 := by
    intro hq
    have h1 : JMap.hasKey (LRU.run (LRU.new m) ops).map e.1 = true := by
      rw [hcm]
      exact hasKey_of_head _ e rfl
    rw [hq] at h1
    rw [h1] at hkey
    exact Bool.noConfusion hkey
  refine ⟨?_, ?_, ?_, ?_⟩
  · rw [hadd]
    exact JMap.hasKey_delete_self _ _
  · rw [hadd, JMap.hasKey_delete_ne _ e.1 k.1 hek, hw]
    exact JMap.hasKey_set_self _ _ _
  · intro l hl hkl
    rw [hadd, JMap.hasKey_delete_ne _ e.1 l (Ne.symm hl), hw,
      JMap.set_eq_append_of_not_hasKey _ _ _ hkey]
    exact hasKey_append_left _ _ _ hkl
  · intro l hl hkl
    have hpw : List.Pairwise
        (fun a b => (traceRun m ops).lastTouch a < (traceRun m ops).lastTouch b)
        (JMap.keys (LRU.run (LRU.new m) ops).map) := by
      rw [← hc]
      exact hpw0
    rw [hcm] at hpw
    have hkeys : JMap.keys (e :: rest) = e.1 :: JMap.keys rest := rfl
    rw [hkeys] at hpw
    have hforall := List.pairwise_cons.mp hpw
    have hlmem : l ∈ JMap.keys rest := by
      have h2 : l ∈ JMap.keys (LRU.run (LRU.new m) ops).map :=
        JMap.mem_keys_of_hasKey _ _ hkl
      rw [hcm, hkeys] at h2
      rcases List.mem_cons.mp h2 with h2 | h2
      · exact absurd h2 hl
      · exact h2
    exact hforall.1 l hlmem

/-- Witness for C1: maxSize 2, groups 0 and 1 stored, group 0 refreshed by
a get; adding group 2 evicts group 1 (the least recently touched) and
keeps the rest, and the capacity bound holds. -/
theorem lru_capacity_and_eviction_witness :
    (1 : Int) ≤ 2 ∧
    ((LRU.run (LRU.new 2 : LRU Entry) [Op.addOp (0, 5) (Entry.score 1),
        Op.addOp (1, 6) (Entry.score 2), Op.getOp (0, 5)]).size : Int) ≤ 2 ∧
    JMap.hasKey ((LRU.run (LRU.new 2 : LRU Entry) [Op.addOp (0, 5) (Entry.score 1),
        Op.addOp (1, 6) (Entry.score 2), Op.getOp (0, 5)]).add (2, 7)
        (Entry.score 3)).map 1 = false ∧
    JMap.hasKey ((LRU.run (LRU.new 2 : LRU Entry) [Op.addOp (0, 5) (Entry.score 1),
        Op.addOp (1, 6) (Entry.score 2), Op.getOp (0, 5)]).add (2, 7)
        (Entry.score 3)).map 2 = true := by
  have h := lru_capacity_and_eviction 2 (by decide)
    [Op.addOp (0, 5) (Entry.score 1), Op.addOp (1, 6) (Entry.score 2), Op.getOp (0, 5)]
  have h3 := h.2.2.1 (2, 7) (Entry.score 3) (1, [((6 : Int), Entry.score 2)])
    (by decide) (by decide) (by decide)
  exact ⟨by decide, h.1, h3.1, h3.2.1⟩

end ChessTP
